import Mathlib

/-!
Shallow embedding of the tlsh-selector repository (src/tlsh_selector), covering:

* `_greedy_selection` in selector.py: the farthest-point greedy loop over a
  `min_distances` array whose cells are `np.inf` (never compared), `-1`
  (already selected) or a finite distance; modelled by `MDist`/`roundList`/
  `greedyLoop`/`greedy`.
* `select` / `select_diverse_files` in selector.py (cache disabled): parameter
  validation, hash computation, the `InsufficientFilesError` pre-flight check,
  greedy selection over the dict keys and the mapping back to original indices
  via `list.index`; modelled by `select_diverse_files`.
* `compute_hashes_parallel` in parallel.py (sequential path; the parallel path
  produces the same mapping): per-file failures are swallowed and the file is
  omitted; modelled by `computeHashes` over a Python-dict model (`dictInsert`).
* `CacheManager` in hash_utils.py: `get`, `set`, `get_all_hashes`, `clear`
  with the (mtime, size) staleness key; modelled by `CacheState` with the
  filesystem abstracted as `String → Option (Int × Nat)`.

TLSH hashing itself (`tlsh.hash`) and the distance (`tlsh.diff`) are external
library calls; they are abstracted as parameters `hashFn : String → Option
String` (None = the per-file computation raises) and `dist : String → String
→ Nat` (tlsh.diff returns a nonnegative integer). Python's global `random`
module is abstracted by `seedFn` (the state installed by `random.seed(s)`)
and `randFn st n` (the value of `random.randint(0, n - 1)` in state `st`).
-/

namespace TlshSelector

/-- Cell of the `min_distances` numpy array in `_greedy_selection`:
`inf` is `np.inf` (not yet compared), `sel` is `-1` (already selected),
`fin d` is a finite distance value (tlsh.diff returns a nonnegative int). -/
inductive MDist where
  | sel : MDist
  | inf : MDist
  | fin : Nat → MDist
deriving DecidableEq, Repr

/-- The comparison `min_distances[idx] > max_min_distance` where
`max_min_distance` starts at `-np.inf` (modelled by `none`). -/
def gtBest (v : Nat) : Option (Nat × Nat) → Bool
  | none => true
  | some p => decide (p.1 < v)

/-- One round of the scan `for idx in range(n)` in `_greedy_selection`
(selector.py lines 281-298), processing the cells from index `i0` on:
skip selected cells; on first touch set the cell to the distance, otherwise
take the min; track `(max_min_distance, next_idx)` with a strict `>` test.
Returns the updated array together with the tracked best. -/
def roundList (dist : Nat → Nat) : Nat → List MDist → Option (Nat × Nat) →
    List MDist × Option (Nat × Nat)
  | _, [], best => ([], best)
  | i0, MDist.sel :: rest, best =>
    let r := roundList dist (i0 + 1) rest best
    (MDist.sel :: r.1, r.2)
  | i0, MDist.inf :: rest, best =>
    let v := dist i0
    let best1 := if gtBest v best then some (v, i0) else best
    let r := roundList dist (i0 + 1) rest best1
    (MDist.fin v :: r.1, r.2)
  | i0, MDist.fin m :: rest, best =>
    let v := min m (dist i0)
    let best1 := if gtBest v best then some (v, i0) else best
    let r := roundList dist (i0 + 1) rest best1
    (MDist.fin v :: r.1, r.2)

/-- Specification helper: the array after one round's distance updates
(first component of `roundList`). -/
def updMD (dist : Nat → Nat) : Nat → List MDist → List MDist
  | _, [] => []
  | i0, MDist.sel :: rest => MDist.sel :: updMD dist (i0 + 1) rest
  | i0, MDist.inf :: rest => MDist.fin (dist i0) :: updMD dist (i0 + 1) rest
  | i0, MDist.fin m :: rest => MDist.fin (min m (dist i0)) :: updMD dist (i0 + 1) rest

/-- Specification helper: the `(value, index)` pairs a round offers to the
max-tracker, in scan order (one per not-yet-selected cell). -/
def candPairs (dist : Nat → Nat) : Nat → List MDist → List (Nat × Nat)
  | _, [] => []
  | i0, MDist.sel :: rest => candPairs dist (i0 + 1) rest
  | i0, MDist.inf :: rest => (dist i0, i0) :: candPairs dist (i0 + 1) rest
  | i0, MDist.fin m :: rest => (min m (dist i0), i0) :: candPairs dist (i0 + 1) rest

/-- Specification helper: folding the strict-greater tracker over a list of
`(value, index)` pairs (second component of `roundList`). -/
def pickBest (b : Option (Nat × Nat)) (ps : List (Nat × Nat)) : Option (Nat × Nat) :=
  ps.foldl (fun acc p => if gtBest p.1 acc then some p else acc) b

/-- The `for _ in iterator` loop of `_greedy_selection` (lines 273-304):
`cur` is the most recently selected index, `r` the number of rounds left.
Each round scans the whole array, then appends the winner and marks it
selected. If no winner exists every cell is already selected, and every
later round finds nothing as well, so returning early is equivalent. -/
def greedyLoop (dist : Nat → Nat → Nat) : Nat → Nat → List MDist → List Nat × List Nat
  | _, 0, _ => ([], [])
  | cur, r + 1, md =>
    let step := roundList (dist cur) 0 md none
    match step.2 with
    | none => ([], [])
    | some (v, i) =>
      let res := greedyLoop dist i r (step.1.set i MDist.sel)
      (i :: res.1, v :: res.2)

/-- Model of `_greedy_selection` (selector.py lines 235-306) with the first (random)
pick passed in as `first`: initialise all cells to `inf`, mark the first pick
selected with score `np.inf` (modelled `⊤ : WithTop Nat`), then run
`n_select - 1` rounds. Returns (selected indices, diversity scores). -/
def greedy (dist : Nat → Nat → Nat) (n k first : Nat) : List Nat × List (WithTop Nat) :=
  let md0 := (List.replicate n MDist.inf).set first MDist.sel
  let res := greedyLoop dist first (k - 1) md0
  (first :: res.1, ⊤ :: res.2.map WithTop.some)

/-- Lookup in a Python-dict modelled as an association list (first match). -/
def dictLookup {α : Type} (d : List (String × α)) (key : String) : Option α :=
  (d.find? (fun p => decide (p.1 = key))).map Prod.snd

/-- Python dict assignment of val at key: overwrite in place when the key is
present (keeping its position), otherwise append at the end. -/
def dictInsert {α : Type} (d : List (String × α)) (key : String) (val : α) :
    List (String × α) :=
  if d.any (fun p => decide (p.1 = key)) then
    d.map (fun p => if p.1 = key then (key, val) else p)
  else d ++ [(key, val)]

/-- Model of `compute_hashes_parallel` (parallel.py lines 29-74): per path, try the
hash computation; on failure (`hashFn p = none`, i.e. `compute_tlsh_hash`
raised) skip the path, otherwise store `results[file_path] = hash_value`.
The parallel branch fills the same dict from the same per-path outcomes. -/
def computeHashes (hashFn : String → Option String) (paths : List String) :
    List (String × String) :=
  paths.foldl (fun d p => match hashFn p with
    | some h => dictInsert d p h
    | none => d) []

/-- Errors surfaced by `select_diverse_files`: `ValueError` for bad
`n_select`, `InsufficientFilesError` carrying the valid-file count and the
requested count (selector.py lines 62-68 and 162-166). -/
inductive SelError where
  | valueError : SelError
  | insufficientFiles : Nat → Nat → SelError
deriving DecidableEq, Repr

/-- The exception messages: the `InsufficientFilesError` f-string interpolates
both the valid-file count and the requested count. -/
def SelError.message : SelError → String
  | SelError.valueError => "n_select must be positive and not greater than number of files"
  | SelError.insufficientFiles v k =>
    "Only " ++ toString v ++ " valid files found, but " ++ toString k ++
      " requested. Check if files exist and are valid for TLSH hashing (>= 50 bytes)."

/-- The global random state after the optional `random.seed(random_state)`
call (selector.py lines 70-73 and 150-152): a supplied seed overwrites the
ambient state `g`, otherwise `g` is kept. -/
def seedState (seedFn : Nat → Nat) (g : Nat) : Option Nat → Nat
  | some s => seedFn s
  | none => g

/-- Model of `select_diverse_files` / `FileSelector.select` with caching disabled
(selector.py lines 17-92 and 124-189): validate `n_select`, install the seed
(`random.seed`) when `random_state` is given, compute the hash dict, take
`valid_paths = list(hash_dict.keys())`, pre-flight check, greedy-select over
the valid paths with `tlsh.diff` on their hashes, then map each selected
valid path back with `file_paths.index` (first occurrence). `g` is the
ambient global random state used when no seed is supplied. -/
def select_diverse_files (seedFn : Nat → Nat) (randFn : Nat → Nat → Nat)
    (hashFn : String → Option String) (dist : String → String → Nat)
    (g : Nat) (paths : List String) (k : Nat) (randomState : Option Nat) :
    Except SelError (List Nat × List (WithTop Nat)) :=
  if k ≤ 0 then Except.error SelError.valueError
  else if paths.length < k then Except.error SelError.valueError
  else
    let st := seedState seedFn g randomState
    let hd := computeHashes hashFn paths
    let valid := hd.map Prod.fst
    if valid.length < k then Except.error (SelError.insufficientFiles valid.length k)
    else
      let first := randFn st valid.length
      let hashAt := fun i => (dictLookup hd (valid.getD i "")).getD ""
      let res := greedy (fun i j => dist (hashAt i) (hashAt j)) valid.length k first
      Except.ok (res.1.map (fun i => paths.indexOf (valid.getD i "")), res.2)

/-- A cached record with keys hash, mtime and size (hash_utils.py
lines 156-162). `mtime` is `os.stat().st_mtime`, `size` is `st_size`. -/
structure CacheEntry where
  hash : String
  mtime : Int
  size : Nat
deriving DecidableEq, Repr

/-- In-memory state of `CacheManager`: the `_cache` dict and the `_dirty`
flag (hash_utils.py lines 64-65). -/
structure CacheState where
  cache : List (String × CacheEntry)
  dirty : Bool
deriving DecidableEq, Repr

/-- The filesystem as seen through `os.stat`: `none` when the path does not
exist (`FileNotFoundError`), otherwise `(st_mtime, st_size)`. -/
abbrev FileSys : Type := String → Option (Int × Nat)

/-- Dict lookup in the `_cache` dict. -/
def lookupEntry (c : List (String × CacheEntry)) (key : String) : Option CacheEntry :=
  dictLookup c key

/-- Dict assignment in the `_cache` dict. -/
def insertEntry (c : List (String × CacheEntry)) (key : String) (e : CacheEntry) :
    List (String × CacheEntry) :=
  dictInsert c key e

/-- Model of `CacheManager._is_cache_valid` (hash_utils.py lines 113-132): the path
must be a key of `_cache`, `os.stat` must succeed, and the stored mtime and
size must both equal the current ones. -/
def is_cache_valid (fs : FileSys) (st : CacheState) (p : String) : Bool :=
  match lookupEntry st.cache p with
  | none => false
  | some e =>
    match fs p with
    | none => false
    | some ms => decide (e.mtime = ms.1 ∧ e.size = ms.2)

/-- Model of `CacheManager.get` (hash_utils.py lines 134-146), in state-passing form:
the method reads `_cache` but assigns nothing, so the state comes back as it
went in. -/
def CacheState.get (fs : FileSys) (st : CacheState) (p : String) :
    Option String × CacheState :=
  if is_cache_valid fs st p then ((lookupEntry st.cache p).map CacheEntry.hash, st)
  else (none, st)

/-- Model of `CacheManager.set` (hash_utils.py lines 148-165): stat the file, store
the hash with the mtime and size and mark dirty; a `FileNotFoundError` is swallowed and
nothing changes. -/
def CacheState.set (fs : FileSys) (st : CacheState) (p : String) (h : String) :
    CacheState :=
  match fs p with
  | some ms => { cache := insertEntry st.cache p ⟨h, ms.1, ms.2⟩, dirty := true }
  | none => st

/-- Model of `CacheManager.get_all_hashes` (hash_utils.py lines 167-178), in
state-passing form: builds the result dict from the currently valid entries,
assigning nothing to `self`. -/
def CacheState.get_all_hashes (fs : FileSys) (st : CacheState) :
    List (String × String) × CacheState :=
  (st.cache.foldl
    (fun r p => if is_cache_valid fs st p.1 then r ++ [(p.1, p.2.hash)] else r) [],
   st)

/-- Model of `CacheManager.clear` (hash_utils.py lines 180-184), in-memory effect:
wipe `_cache` and mark dirty (the immediate save then persists the wipe). -/
def CacheState.clear (_st : CacheState) : CacheState :=
  { cache := [], dirty := true }

/-- The |i - j| distance of the spec's concrete scenario (§8). -/
def distAbs (i j : Nat) : Nat := max i j - min i j

/-- Number of cells of the array that are not marked selected. -/
def nonselCount (md : List MDist) : Nat :=
  md.countP (fun c => decide (c ≠ MDist.sel))

theorem pickBest_nil (b : Option (Nat × Nat)) : pickBest b [] = b := rfl

theorem pickBest_cons (b : Option (Nat × Nat)) (p : Nat × Nat) (ps : List (Nat × Nat)) :
    pickBest b (p :: ps) = pickBest (if gtBest p.1 b then some p else b) ps := rfl

theorem roundList_fst (dist : Nat → Nat) :
    ∀ (md : List MDist) (i0 : Nat) (b : Option (Nat × Nat)),
      (roundList dist i0 md b).1 = updMD dist i0 md := by
  intro md
  induction md with
  | nil => intro i0 b; rfl
  | cons c rest ih =>
    intro i0 b
    cases c with
    | sel => simp [roundList, updMD, ih]
    | inf => simp [roundList, updMD, ih]
    | fin m => simp [roundList, updMD, ih]

theorem roundList_snd (dist : Nat → Nat) :
    ∀ (md : List MDist) (i0 : Nat) (b : Option (Nat × Nat)),
      (roundList dist i0 md b).2 = pickBest b (candPairs dist i0 md) := by
  intro md
  induction md with
  | nil => intro i0 b; rfl
  | cons c rest ih =>
    intro i0 b
    cases c with
    | sel => simp [roundList, candPairs, ih]
    | inf => simp [roundList, candPairs, pickBest_cons, ih]
    | fin m => simp [roundList, candPairs, pickBest_cons, ih]

theorem updMD_length (dist : Nat → Nat) :
    ∀ (md : List MDist) (i0 : Nat), (updMD dist i0 md).length = md.length := by
  intro md
  induction md with
  | nil => intro i0; rfl
  | cons c rest ih =>
    intro i0
    cases c <;> simp [updMD, ih]

theorem updMD_getElem (dist : Nat → Nat) :
    ∀ (md : List MDist) (i0 j : Nat),
      (updMD dist i0 md)[j]? =
        match md[j]? with
        | none => none
        | some MDist.sel => some MDist.sel
        | some MDist.inf => some (MDist.fin (dist (i0 + j)))
        | some (MDist.fin m) => some (MDist.fin (min m (dist (i0 + j)))) := by
  intro md
  induction md with
  | nil => intro i0 j; simp [updMD]
  | cons c rest ih =>
    intro i0 j
    cases j with
    | zero => cases c <;> simp [updMD]
    | succ j' =>
      cases c <;>
        simpa [updMD, Nat.add_assoc, Nat.add_comm 1 j'] using ih (i0 + 1) j'

theorem candPairs_lb (dist : Nat → Nat) :
    ∀ (md : List MDist) (i0 : Nat) (q : Nat × Nat),
      q ∈ candPairs dist i0 md → i0 ≤ q.2 := by
  intro md
  induction md with
  | nil => intro i0 q hq; simp [candPairs] at hq
  | cons c rest ih =>
    intro i0 q hq
    cases c with
    | sel =>
      have := ih (i0 + 1) q (by simpa [candPairs] using hq)
      omega
    | inf =>
      simp only [candPairs, List.mem_cons] at hq
      rcases hq with h | h
      · subst h; simp
      · have := ih (i0 + 1) q h; omega
    | fin m =>
      simp only [candPairs, List.mem_cons] at hq
      rcases hq with h | h
      · subst h; simp
      · have := ih (i0 + 1) q h; omega

theorem candPairs_pairwise (dist : Nat → Nat) :
    ∀ (md : List MDist) (i0 : Nat),
      (candPairs dist i0 md).Pairwise (fun p q => p.2 < q.2) := by
  intro md
  induction md with
  | nil => intro i0; simp [candPairs]
  | cons c rest ih =>
    intro i0
    cases c with
    | sel => simpa [candPairs] using ih (i0 + 1)
    | inf =>
      refine List.Pairwise.cons ?_ (ih (i0 + 1))
      intro q hq
      have := candPairs_lb dist rest (i0 + 1) q hq
      simpa using this
    | fin m =>
      refine List.Pairwise.cons ?_ (ih (i0 + 1))
      intro q hq
      have := candPairs_lb dist rest (i0 + 1) q hq
      simpa using this

theorem candPairs_length (dist : Nat → Nat) :
    ∀ (md : List MDist) (i0 : Nat),
      (candPairs dist i0 md).length = nonselCount md := by
  intro md
  induction md with
  | nil => intro i0; rfl
  | cons c rest ih =>
    intro i0
    cases c <;> simp [candPairs, nonselCount, List.countP_cons, ih]

theorem candPairs_mem_iff (dist : Nat → Nat) :
    ∀ (md : List MDist) (i0 w j : Nat),
      (w, j) ∈ candPairs dist i0 md ↔
        i0 ≤ j ∧ (updMD dist i0 md)[j - i0]? = some (MDist.fin w) := by
  intro md
  induction md with
  | nil => intro i0 w j; simp [candPairs, updMD]
  | cons c rest ih =>
    intro i0 w j
    rcases Nat.lt_or_ge j i0 with hj | hj
    · constructor
      · intro h
        have hle := candPairs_lb dist (c :: rest) i0 (w, j) h
        omega
      · intro h; omega
    · rcases Nat.eq_or_lt_of_le hj with hj0 | hj1
      · subst hj0
        cases c with
        | sel =>
          simp only [candPairs, updMD, Nat.sub_self, List.getElem?_cons_zero]
          constructor
          · intro h
            have hle := candPairs_lb dist rest (i0 + 1) (w, i0) h
            simp at hle
          · intro h; exact absurd h.2 (by simp)
        | inf =>
          simp only [candPairs, updMD, Nat.sub_self, List.getElem?_cons_zero,
            List.mem_cons]
          constructor
          · rintro (h | h)
            · have hw : w = dist i0 := congrArg Prod.fst h
              exact ⟨Nat.le_refl i0, by rw [hw]⟩
            · have hle := candPairs_lb dist rest (i0 + 1) (w, i0) h
              simp at hle
          · intro h
            have hw : dist i0 = w := by
              have h2 := h.2
              simpa using h2
            exact Or.inl (by rw [hw])
        | fin m =>
          simp only [candPairs, updMD, Nat.sub_self, List.getElem?_cons_zero,
            List.mem_cons]
          constructor
          · rintro (h | h)
            · have hw : w = min m (dist i0) := congrArg Prod.fst h
              exact ⟨Nat.le_refl i0, by rw [hw]⟩
            · have hle := candPairs_lb dist rest (i0 + 1) (w, i0) h
              simp at hle
          · intro h
            have hw : min m (dist i0) = w := by
              have h2 := h.2
              simpa using h2
            exact Or.inl (by rw [hw])
      · have hsub : j - i0 = (j - (i0 + 1)) + 1 := by omega
        cases c with
        | sel =>
          simp only [candPairs, updMD, hsub, List.getElem?_cons_succ]
          rw [ih (i0 + 1) w j]
          constructor <;> intro h <;> exact ⟨by omega, h.2⟩
        | inf =>
          simp only [candPairs, updMD, hsub, List.getElem?_cons_succ, List.mem_cons]
          rw [ih (i0 + 1) w j]
          constructor
          · rintro (h | h)
            · exact absurd (congrArg Prod.snd h) (by simp; omega)
            · exact ⟨by omega, h.2⟩
          · intro h
            exact Or.inr ⟨by omega, h.2⟩
        | fin m =>
          simp only [candPairs, updMD, hsub, List.getElem?_cons_succ, List.mem_cons]
          rw [ih (i0 + 1) w j]
          constructor
          · rintro (h | h)
            · exact absurd (congrArg Prod.snd h) (by simp; omega)
            · exact ⟨by omega, h.2⟩
          · intro h
            exact Or.inr ⟨by omega, h.2⟩

theorem pickBest_isSome :
    ∀ (ps : List (Nat × Nat)) (b : Nat × Nat), (pickBest (some b) ps).isSome = true := by
  intro ps
  induction ps with
  | nil => intro b; rfl
  | cons p rest ih =>
    intro b
    rw [pickBest_cons]
    by_cases h : gtBest p.1 (some b) = true
    · rw [if_pos h]; exact ih p
    · rw [if_neg h]; exact ih b

theorem pickBest_go (ps : List (Nat × Nat)) :
    ∀ (bv bi : Nat),
      ps.Pairwise (fun p q => p.2 < q.2) →
      (∀ w j, (w, j) ∈ ps → bi < j) →
      ∃ v i, pickBest (some (bv, bi)) ps = some (v, i) ∧
        bv ≤ v ∧ ((v, i) = (bv, bi) ∨ (v, i) ∈ ps) ∧ (bi < i → bv < v) ∧
        ∀ w j, (w, j) ∈ ps → w ≤ v ∧ (j < i → w < v) := by
  induction ps with
  | nil =>
    intro bv bi _ _
    refine ⟨bv, bi, rfl, Nat.le_refl bv, Or.inl rfl, ?_, ?_⟩
    · intro h; exact absurd h (Nat.lt_irrefl bi)
    · intro w j hj; simp at hj
  | cons p rest ih =>
    obtain ⟨w0, j0⟩ := p
    intro bv bi hp hb
    rw [List.pairwise_cons] at hp
    have hj0 : ∀ w j, (w, j) ∈ rest → j0 < j := by
      intro w j hj
      exact hp.1 (w, j) hj
    rw [pickBest_cons]
    by_cases hlt : bv < w0
    · rw [if_pos (by simpa [gtBest] using hlt)]
      obtain ⟨v, i, hpb, hle, hmem, himp, hall⟩ := ih w0 j0 hp.2 hj0
      refine ⟨v, i, hpb, by omega, ?_, ?_, ?_⟩
      · rcases hmem with h | h
        · exact Or.inr (h ▸ List.mem_cons_self (w0, j0) rest)
        · exact Or.inr (List.mem_cons_of_mem _ h)
      · intro _; omega
      · intro w j hj
        rcases List.mem_cons.mp hj with h | h
        · have hw : w = w0 ∧ j = j0 := by
            constructor
            · exact congrArg Prod.fst h
            · exact congrArg Prod.snd h
          obtain ⟨rfl, rfl⟩ := hw
          exact ⟨hle, himp⟩
        · exact hall w j h
    · rw [if_neg (by simpa [gtBest] using hlt)]
      have hbrest : ∀ w j, (w, j) ∈ rest → bi < j := by
        intro w j hj
        exact hb w j (List.mem_cons_of_mem _ hj)
      obtain ⟨v, i, hpb, hle, hmem, himp, hall⟩ := ih bv bi hp.2 hbrest
      refine ⟨v, i, hpb, hle, ?_, himp, ?_⟩
      · rcases hmem with h | h
        · exact Or.inl h
        · exact Or.inr (List.mem_cons_of_mem _ h)
      · intro w j hj
        rcases List.mem_cons.mp hj with h | h
        · have hw : w = w0 ∧ j = j0 := by
            constructor
            · exact congrArg Prod.fst h
            · exact congrArg Prod.snd h
          obtain ⟨rfl, rfl⟩ := hw
          constructor
          · omega
          · intro hji
            have hbij : bi < j := hb w j hj
            have : bv < v := himp (by omega)
            omega
        · exact hall w j h

theorem pickBest_none_some (ps : List (Nat × Nat))
    (hps : ps.Pairwise (fun p q => p.2 < q.2)) (v i : Nat)
    (h : pickBest none ps = some (v, i)) :
    (v, i) ∈ ps ∧ ∀ w j, (w, j) ∈ ps → w ≤ v ∧ (j < i → w < v) := by
  cases ps with
  | nil => simp [pickBest] at h
  | cons p rest =>
    obtain ⟨w0, j0⟩ := p
    rw [List.pairwise_cons] at hps
    rw [pickBest_cons, if_pos (by simp [gtBest])] at h
    obtain ⟨v', i', hpb, hle, hmem, himp, hall⟩ :=
      pickBest_go rest w0 j0 hps.2 (fun w j hj => hps.1 (w, j) hj)
    rw [hpb] at h
    obtain ⟨rfl, rfl⟩ : v' = v ∧ i' = i := by
      constructor
      · exact congrArg (fun o => (o.getD (0, 0)).1) h
      · exact congrArg (fun o => (o.getD (0, 0)).2) h
    constructor
    · rcases hmem with hm | hm
      · exact hm ▸ List.mem_cons_self (w0, j0) rest
      · exact List.mem_cons_of_mem _ hm
    · intro w j hj
      rcases List.mem_cons.mp hj with hm | hm
      · have hw : w = w0 ∧ j = j0 := by
          constructor
          · exact congrArg Prod.fst hm
          · exact congrArg Prod.snd hm
        obtain ⟨rfl, rfl⟩ := hw
        exact ⟨hle, himp⟩
      · exact hall w j hm

theorem roundList_none_nonsel (dist : Nat → Nat) (md : List MDist)
    (h : (roundList dist 0 md none).2 = none) : nonselCount md = 0 := by
  rw [roundList_snd] at h
  rw [← candPairs_length dist md 0]
  cases hcp : candPairs dist 0 md with
  | nil => simp
  | cons p rest =>
    rw [hcp, pickBest_cons, if_pos (by simp [gtBest])] at h
    have := pickBest_isSome rest p
    rw [h] at this
    simp at this

theorem roundList_some_spec (dist : Nat → Nat) (md : List MDist) (v i : Nat)
    (h : (roundList dist 0 md none).2 = some (v, i)) :
    (updMD dist 0 md)[i]? = some (MDist.fin v) ∧
      ∀ j w, (updMD dist 0 md)[j]? = some (MDist.fin w) → w ≤ v ∧ (j < i → w < v) := by
  rw [roundList_snd] at h
  obtain ⟨hmem, hall⟩ := pickBest_none_some _ (candPairs_pairwise dist md 0) v i h
  constructor
  · have := (candPairs_mem_iff dist md 0 v i).mp hmem
    simpa using this.2
  · intro j w hw
    have hj : (w, j) ∈ candPairs dist 0 md := by
      rw [candPairs_mem_iff dist md 0 w j]
      exact ⟨Nat.zero_le j, by simpa using hw⟩
    exact hall w j hj

theorem nonselCount_updMD (dist : Nat → Nat) :
    ∀ (md : List MDist) (i0 : Nat), nonselCount (updMD dist i0 md) = nonselCount md := by
  intro md
  induction md with
  | nil => intro i0; rfl
  | cons c rest ih =>
    intro i0
    cases c <;> simp [updMD, nonselCount, List.countP_cons, ih]
    <;> simp [nonselCount] at ih
    <;> exact ih (i0 + 1)

theorem nonselCount_replicate_inf (n : Nat) :
    nonselCount (List.replicate n MDist.inf) = n := by
  induction n with
  | zero => rfl
  | succ n ih => simp [List.replicate_succ, nonselCount, List.countP_cons] at ih ⊢; omega

theorem nonselCount_set_sel :
    ∀ (md : List MDist) (i : Nat) (c : MDist), md[i]? = some c → c ≠ MDist.sel →
      nonselCount (md.set i MDist.sel) + 1 = nonselCount md := by
  intro md
  induction md with
  | nil => intro i c h _; simp at h
  | cons a rest ih =>
    intro i c h hc
    cases i with
    | zero =>
      simp at h
      subst h
      cases a with
      | sel => exact absurd rfl hc
      | inf => simp [List.set, nonselCount, List.countP_cons]
      | fin m => simp [List.set, nonselCount, List.countP_cons]
    | succ i' =>
      simp at h
      have := ih i' c h hc
      cases a <;> simp [List.set, nonselCount, List.countP_cons] at this ⊢ <;> omega

theorem updMD_sel_iff (dist : Nat → Nat) (md : List MDist) (i0 j : Nat) :
    (updMD dist i0 md)[j]? = some MDist.sel ↔ md[j]? = some MDist.sel := by
  rw [updMD_getElem]
  cases h : md[j]? with
  | none => simp
  | some c => cases c <;> simp

theorem updMD_ne_inf (dist : Nat → Nat) (md : List MDist) (i0 j : Nat) :
    (updMD dist i0 md)[j]? ≠ some MDist.inf := by
  rw [updMD_getElem]
  cases h : md[j]? with
  | none => simp
  | some c => cases c <;> simp

theorem greedyLoop_len (dist : Nat → Nat → Nat) :
    ∀ (r cur : Nat) (md : List MDist), r ≤ nonselCount md →
      (greedyLoop dist cur r md).1.length = r ∧ (greedyLoop dist cur r md).2.length = r := by
  intro r
  induction r with
  | zero => intro cur md _; exact ⟨rfl, rfl⟩
  | succ r ih =>
    intro cur md hr
    simp only [greedyLoop]
    cases hstep : (roundList (dist cur) 0 md none).2 with
    | none =>
      have := roundList_none_nonsel (dist cur) md hstep
      omega
    | some p =>
      obtain ⟨v, i⟩ := p
      have hup := roundList_some_spec (dist cur) md v i hstep
      have hcnt : nonselCount ((roundList (dist cur) 0 md none).1.set i MDist.sel) + 1 =
          nonselCount md := by
        rw [roundList_fst]
        have := nonselCount_set_sel (updMD (dist cur) 0 md) i (MDist.fin v) hup.1 (by simp)
        rw [this]
        exact nonselCount_updMD (dist cur) md 0
      have ihr := ih i ((roundList (dist cur) 0 md none).1.set i MDist.sel) (by omega)
      simp [ihr.1, ihr.2]

theorem greedyLoop_mem (dist : Nat → Nat → Nat) :
    ∀ (r cur : Nat) (md : List MDist) (x : Nat), x ∈ (greedyLoop dist cur r md).1 →
      x < md.length ∧ md[x]? ≠ some MDist.sel := by
  intro r
  induction r with
  | zero => intro cur md x hx; simp [greedyLoop] at hx
  | succ r ih =>
    intro cur md x hx
    simp only [greedyLoop] at hx
    cases hstep : (roundList (dist cur) 0 md none).2 with
    | none => rw [hstep] at hx; simp at hx
    | some p =>
      obtain ⟨v, i⟩ := p
      rw [hstep] at hx
      simp only [List.mem_cons] at hx
      have hup := roundList_some_spec (dist cur) md v i hstep
      have hilen : i < md.length := by
        have : i < (updMD (dist cur) 0 md).length := by
          have := hup.1
          exact (List.getElem?_eq_some.mp this).1
        rwa [updMD_length] at this
      rcases hx with rfl | hx
      · refine ⟨hilen, ?_⟩
        intro hsel
        have : (updMD (dist cur) 0 md)[x]? = some MDist.sel :=
          (updMD_sel_iff (dist cur) md 0 x).mpr hsel
        rw [hup.1] at this
        simp at this
      · have hx' := ih i ((roundList (dist cur) 0 md none).1.set i MDist.sel) x hx
        rw [roundList_fst] at hx'
        have hxlen : x < md.length := by
          have := hx'.1
          rw [List.length_set, updMD_length] at this
          exact this
        refine ⟨hxlen, ?_⟩
        intro hsel
        have hupd : (updMD (dist cur) 0 md)[x]? = some MDist.sel :=
          (updMD_sel_iff (dist cur) md 0 x).mpr hsel
        by_cases hxi : x = i
        · subst hxi
          rw [hup.1] at hupd
          simp at hupd
        · have : ((updMD (dist cur) 0 md).set i MDist.sel)[x]? = some MDist.sel := by
            rw [List.getElem?_set_ne (fun h => hxi h.symm)]
            exact hupd
          exact hx'.2 this

theorem greedyLoop_nodup (dist : Nat → Nat → Nat) :
    ∀ (r cur : Nat) (md : List MDist), (greedyLoop dist cur r md).1.Nodup := by
  intro r
  induction r with
  | zero => intro cur md; simp [greedyLoop]
  | succ r ih =>
    intro cur md
    simp only [greedyLoop]
    cases hstep : (roundList (dist cur) 0 md none).2 with
    | none => simp
    | some p =>
      obtain ⟨v, i⟩ := p
      simp only [List.nodup_cons]
      refine ⟨?_, ih i _⟩
      intro hmem
      have hup := roundList_some_spec (dist cur) md v i hstep
      have hilen : i < (updMD (dist cur) 0 md).length :=
        (List.getElem?_eq_some.mp hup.1).1
      have := (greedyLoop_mem dist r i ((roundList (dist cur) 0 md none).1.set i MDist.sel)
        i hmem).2
      rw [roundList_fst] at this
      exact this (List.getElem?_set_self hilen)

theorem greedyLoop_chain (dist : Nat → Nat → Nat) :
    ∀ (r cur : Nat) (md : List MDist),
      List.Chain' (fun a b => b ≤ a) (greedyLoop dist cur r md).2 ∧
      (∀ B : Nat, (∀ j w : Nat, md[j]? = some (MDist.fin w) → w ≤ B) →
        (∀ j : Nat, md[j]? ≠ some MDist.inf) →
        ∀ s ∈ (greedyLoop dist cur r md).2, s ≤ B) := by
  intro r
  induction r with
  | zero =>
    intro cur md
    constructor
    · exact List.chain'_nil
    · intro B hB hNI s hs
      simp [greedyLoop] at hs
  | succ r ih =>
    intro cur md
    simp only [greedyLoop]
    cases hstep : (roundList (dist cur) 0 md none).2 with
    | none => exact ⟨List.chain'_nil, by intro B _ _ s hs; simp at hs⟩
    | some p =>
      obtain ⟨v, i⟩ := p
      have hup := roundList_some_spec (dist cur) md v i hstep
      have hilen : i < (updMD (dist cur) 0 md).length :=
        (List.getElem?_eq_some.mp hup.1).1
      have hmd2 : (roundList (dist cur) 0 md none).1.set i MDist.sel =
          (updMD (dist cur) 0 md).set i MDist.sel := by
        rw [roundList_fst]
      have hAllLe : ∀ j w : Nat,
          ((updMD (dist cur) 0 md).set i MDist.sel)[j]? = some (MDist.fin w) → w ≤ v := by
        intro j w hj
        by_cases hji : j = i
        · subst hji
          rw [List.getElem?_set_self hilen] at hj
          simp at hj
        · rw [List.getElem?_set_ne (fun h => hji h.symm)] at hj
          exact (hup.2 j w hj).1
      have hNoInf : ∀ j : Nat,
          ((updMD (dist cur) 0 md).set i MDist.sel)[j]? ≠ some MDist.inf := by
        intro j
        by_cases hji : j = i
        · subst hji
          rw [List.getElem?_set_self hilen]
          simp
        · rw [List.getElem?_set_ne (fun h => hji h.symm)]
          exact updMD_ne_inf (dist cur) md 0 j
      obtain ⟨ch, bd⟩ := ih i ((updMD (dist cur) 0 md).set i MDist.sel)
      have hvB : ∀ B : Nat, (∀ j w : Nat, md[j]? = some (MDist.fin w) → w ≤ B) →
          (∀ j : Nat, md[j]? ≠ some MDist.inf) → v ≤ B := by
        intro B hB hNI
        have h1 := hup.1
        rw [updMD_getElem] at h1
        cases hmi : md[i]? with
        | none => rw [hmi] at h1; simp at h1
        | some c =>
          cases c with
          | sel => rw [hmi] at h1; simp at h1
          | inf => exact absurd hmi (hNI i)
          | fin m =>
            rw [hmi] at h1
            simp only [Option.some.injEq, MDist.fin.injEq] at h1
            have hm : m ≤ B := hB i m hmi
            omega
      constructor
      · simp only [hmd2]
        rw [List.chain'_cons']
        refine ⟨?_, ch⟩
        intro y hy
        have hy' : y ∈ (greedyLoop dist i r ((updMD (dist cur) 0 md).set i MDist.sel)).2 :=
          List.mem_of_mem_head? hy
        exact bd v hAllLe hNoInf y hy'
      · intro B hB hNI s hs
        simp only [hmd2, List.mem_cons] at hs
        rcases hs with rfl | hs
        · exact hvB B hB hNI
        · have hsv : s ≤ v := bd v hAllLe hNoInf s hs
          have hv : v ≤ B := hvB B hB hNI
          omega

theorem greedyLoop_zero_dist (dist : Nat → Nat → Nat) (hz : ∀ a b, dist a b = 0) :
    ∀ (r cur : Nat) (md : List MDist), r ≤ nonselCount md →
      (greedyLoop dist cur r md).2 = List.replicate r 0 := by
  intro r
  induction r with
  | zero => intro cur md _; rfl
  | succ r ih =>
    intro cur md hr
    simp only [greedyLoop]
    cases hstep : (roundList (dist cur) 0 md none).2 with
    | none =>
      have := roundList_none_nonsel (dist cur) md hstep
      omega
    | some p =>
      obtain ⟨v, i⟩ := p
      have hup := roundList_some_spec (dist cur) md v i hstep
      have hv : v = 0 := by
        have h1 := hup.1
        rw [updMD_getElem] at h1
        cases hmi : md[i]? with
        | none => rw [hmi] at h1; simp at h1
        | some c =>
          cases c with
          | sel => rw [hmi] at h1; simp at h1
          | inf =>
            rw [hmi] at h1
            simp only [Option.some.injEq, MDist.fin.injEq] at h1
            rw [hz cur (0 + i)] at h1
            omega
          | fin m =>
            rw [hmi] at h1
            simp only [Option.some.injEq, MDist.fin.injEq] at h1
            rw [hz cur (0 + i)] at h1
            omega
      have hcnt : nonselCount ((roundList (dist cur) 0 md none).1.set i MDist.sel) + 1 =
          nonselCount md := by
        rw [roundList_fst]
        have := nonselCount_set_sel (updMD (dist cur) 0 md) i (MDist.fin v) hup.1 (by simp)
        rw [this]
        exact nonselCount_updMD (dist cur) md 0
      have ihr := ih i ((roundList (dist cur) 0 md none).1.set i MDist.sel) (by omega)
      simp [ihr, hv, List.replicate_succ]

theorem greedy_spec (dist : Nat → Nat → Nat) (n k first : Nat)
    (hf : first < n) (hk : 1 ≤ k) (hkn : k ≤ n) :
    (greedy dist n k first).1.length = k ∧ (greedy dist n k first).2.length = k ∧
    (greedy dist n k first).1.Nodup ∧ ∀ x ∈ (greedy dist n k first).1, x < n := by
  have hrep : (List.replicate n MDist.inf)[first]? = some MDist.inf :=
    List.getElem?_replicate_of_lt hf
  have hcnt : nonselCount ((List.replicate n MDist.inf).set first MDist.sel) + 1 = n := by
    rw [nonselCount_set_sel (List.replicate n MDist.inf) first MDist.inf hrep (by simp)]
    exact nonselCount_replicate_inf n
  have hmd0len : ((List.replicate n MDist.inf).set first MDist.sel).length = n := by
    simp
  have hlen := greedyLoop_len dist (k - 1) first
    ((List.replicate n MDist.inf).set first MDist.sel) (by omega)
  simp only [greedy]
  refine ⟨?_, ?_, ?_, ?_⟩
  · rw [List.length_cons, hlen.1]; omega
  · rw [List.length_cons, List.length_map, hlen.2]; omega
  · rw [List.nodup_cons]
    refine ⟨?_, greedyLoop_nodup dist (k - 1) first _⟩
    intro hmem
    have := (greedyLoop_mem dist (k - 1) first
      ((List.replicate n MDist.inf).set first MDist.sel) first hmem).2
    exact this (List.getElem?_set_self (by simpa using hf))
  · intro x hx
    simp only [List.mem_cons] at hx
    rcases hx with rfl | hx
    · exact hf
    · have := (greedyLoop_mem dist (k - 1) first
        ((List.replicate n MDist.inf).set first MDist.sel) x hx).1
      rwa [hmd0len] at this

theorem dictAny_iff {α : Type} (d : List (String × α)) (key : String) :
    d.any (fun q => decide (q.1 = key)) = true ↔ key ∈ d.map Prod.fst := by
  simp [List.any_eq_true, List.mem_map]

theorem dictLookup_nil {α : Type} (p : String) : dictLookup ([] : List (String × α)) p = none :=
  rfl

theorem dictLookup_cons {α : Type} (a : String × α) (d : List (String × α)) (p : String) :
    dictLookup (a :: d) p = if a.1 = p then some a.2 else dictLookup d p := by
  unfold dictLookup
  rw [List.find?_cons]
  by_cases h : a.1 = p
  · simp [h]
  · simp [h]

theorem dictLookup_mem_keys {α : Type} :
    ∀ (d : List (String × α)) (key : String) (w : α),
      dictLookup d key = some w → key ∈ d.map Prod.fst := by
  intro d
  induction d with
  | nil => intro key w h; simp [dictLookup_nil] at h
  | cons a rest ih =>
    intro key w h
    rw [dictLookup_cons] at h
    rw [List.map_cons]
    by_cases ha : a.1 = key
    · exact List.mem_cons.mpr (Or.inl ha.symm)
    · rw [if_neg ha] at h
      exact List.mem_cons.mpr (Or.inr (ih key w h))

theorem mem_keys_lookup {α : Type} :
    ∀ (d : List (String × α)) (key : String),
      key ∈ d.map Prod.fst → ∃ w, dictLookup d key = some w := by
  intro d
  induction d with
  | nil => intro key h; simp at h
  | cons a rest ih =>
    intro key h
    rw [dictLookup_cons]
    by_cases ha : a.1 = key
    · exact ⟨a.2, by rw [if_pos ha]⟩
    · rw [if_neg ha]
      apply ih
      rw [List.map_cons, List.mem_cons] at h
      rcases h with h | h
      · exact absurd h.symm ha
      · exact h

theorem dictLookup_map_replace {α : Type} (key : String) (v : α) :
    ∀ (d : List (String × α)) (p : String),
      dictLookup (d.map (fun q => if q.1 = key then (key, v) else q)) p =
        if p = key then (if key ∈ d.map Prod.fst then some v else none)
        else dictLookup d p := by
  intro d
  induction d with
  | nil =>
    intro p
    by_cases hp : p = key <;> simp [dictLookup_nil, hp]
  | cons a rest ih =>
    intro p
    obtain ⟨a1, a2⟩ := a
    simp only [List.map_cons, dictLookup_cons, ih p]
    by_cases hak : a1 = key
    · by_cases hp : p = key <;> by_cases ha1p : a1 = p <;> simp_all [dictLookup_cons]
    · have hka : ¬key = a1 := fun h => hak h.symm
      by_cases hp : p = key <;> by_cases ha1p : a1 = p <;>
        simp_all [dictLookup_cons] <;>
        (try exact if_congr (by simp [List.mem_cons, hka]) rfl rfl)

theorem dictLookup_insert {α : Type} (d : List (String × α)) (key : String) (v : α)
    (p : String) :
    dictLookup (dictInsert d key v) p = if p = key then some v else dictLookup d p := by
  unfold dictInsert
  by_cases hmem : d.any (fun q => decide (q.1 = key)) = true
  · rw [if_pos hmem, dictLookup_map_replace]
    have hk : key ∈ d.map Prod.fst := (dictAny_iff d key).mp hmem
    by_cases hp : p = key <;> simp [hp, hk]
  · rw [if_neg hmem]
    have hk : key ∉ d.map Prod.fst := fun h => hmem ((dictAny_iff d key).mpr h)
    have happ : ∀ (l : List (String × α)),
        dictLookup (l ++ [(key, v)]) p =
          (dictLookup l p).or (dictLookup [(key, v)] p) := by
      intro l
      induction l with
      | nil => simp [dictLookup_nil]
      | cons a rest ihl =>
        rw [List.cons_append, dictLookup_cons, dictLookup_cons]
        by_cases ha : a.1 = p
        · rw [if_pos ha, if_pos ha]
          rfl
        · rw [if_neg ha, if_neg ha, ihl]
    by_cases hp : p = key
    · subst hp
      rw [happ d, if_pos rfl]
      have hnone : dictLookup d p = none := by
        cases hl : dictLookup d p with
        | none => rfl
        | some w => exact absurd (dictLookup_mem_keys d p w hl) hk
      rw [hnone]
      simp [dictLookup_cons, dictLookup_nil]
    · rw [happ d, if_neg hp]
      have hsing : dictLookup [(key, v)] p = none := by
        rw [dictLookup_cons, if_neg (fun h => hp h.symm)]
        rfl
      rw [hsing]
      exact Option.or_none

theorem dictInsert_keys {α : Type} (d : List (String × α)) (key : String) (v : α) :
    (dictInsert d key v).map Prod.fst =
      if key ∈ d.map Prod.fst then d.map Prod.fst else d.map Prod.fst ++ [key] := by
  unfold dictInsert
  by_cases hmem : d.any (fun q => decide (q.1 = key)) = true
  · rw [if_pos hmem, if_pos ((dictAny_iff d key).mp hmem)]
    rw [List.map_map]
    apply List.map_congr_left
    intro q _
    by_cases hq : q.1 = key <;> simp [hq]
  · rw [if_neg hmem, if_neg (fun h => hmem ((dictAny_iff d key).mpr h))]
    simp

theorem computeHashes_go (hf : String → Option String) :
    ∀ (ps : List String) (d : List (String × String)),
      (∀ q h, dictLookup d q = some h → hf q = some h) →
      ∀ p h,
        dictLookup (ps.foldl (fun d p => match hf p with
          | some h => dictInsert d p h
          | none => d) d) p = some h ↔
        (dictLookup d p = some h ∨ (p ∈ ps ∧ hf p = some h)) := by
  intro ps
  induction ps with
  | nil =>
    intro d _ p h
    simp
  | cons q rest ih =>
    intro d hinv p h
    cases hq : hf q with
    | none =>
      simp only [List.foldl_cons, hq]
      rw [ih d hinv p h]
      constructor
      · rintro (hl | ⟨hm, hh⟩)
        · exact Or.inl hl
        · exact Or.inr ⟨List.mem_cons_of_mem q hm, hh⟩
      · rintro (hl | ⟨hm, hh⟩)
        · exact Or.inl hl
        · rcases List.mem_cons.mp hm with rfl | hm'
          · rw [hq] at hh; exact absurd hh (by simp)
          · exact Or.inr ⟨hm', hh⟩
    | some hq' =>
      simp only [List.foldl_cons, hq]
      have hinv' : ∀ x hx, dictLookup (dictInsert d q hq') x = some hx → hf x = some hx := by
        intro x hx hlk
        rw [dictLookup_insert] at hlk
        by_cases hxq : x = q
        · rw [if_pos hxq] at hlk
          rw [hxq, hq]
          exact hlk
        · rw [if_neg hxq] at hlk
          exact hinv x hx hlk
      rw [ih (dictInsert d q hq') hinv' p h]
      rw [dictLookup_insert]
      by_cases hpq : p = q
      · subst hpq
        rw [if_pos rfl]
        constructor
        · rintro (hsome | ⟨hm, hh⟩)
          · exact Or.inr ⟨List.mem_cons_self p rest, by rw [hq]; exact hsome⟩
          · exact Or.inr ⟨List.mem_cons_of_mem p hm, hh⟩
        · rintro (hl | ⟨_, hh⟩)
          · have := hinv p h hl
            rw [hq] at this
            exact Or.inl this
          · rw [hq] at hh
            exact Or.inl hh
      · rw [if_neg hpq]
        constructor
        · rintro (hl | ⟨hm, hh⟩)
          · exact Or.inl hl
          · exact Or.inr ⟨List.mem_cons_of_mem q hm, hh⟩
        · rintro (hl | ⟨hm, hh⟩)
          · exact Or.inl hl
          · rcases List.mem_cons.mp hm with rfl | hm'
            · exact absurd rfl hpq
            · exact Or.inr ⟨hm', hh⟩

theorem computeHashes_lookup (hf : String → Option String) (paths : List String)
    (p : String) (h : String) :
    dictLookup (computeHashes hf paths) p = some h ↔ p ∈ paths ∧ hf p = some h := by
  unfold computeHashes
  rw [computeHashes_go hf paths [] (by intro q hq hlk; simp [dictLookup] at hlk) p h]
  simp [dictLookup]

theorem computeHashes_keys_nodup (hf : String → Option String) (paths : List String) :
    ((computeHashes hf paths).map Prod.fst).Nodup := by
  have main : ∀ (ps : List String) (d : List (String × String)),
      (d.map Prod.fst).Nodup →
      ((ps.foldl (fun d p => match hf p with
        | some h => dictInsert d p h
        | none => d) d).map Prod.fst).Nodup := by
    intro ps
    induction ps with
    | nil => intro d hd; exact hd
    | cons q rest ih =>
      intro d hd
      cases hq : hf q with
      | none =>
        simp only [List.foldl_cons, hq]
        exact ih d hd
      | some hq' =>
        simp only [List.foldl_cons, hq]
        apply ih
        rw [dictInsert_keys]
        by_cases hm : q ∈ d.map Prod.fst
        · rw [if_pos hm]; exact hd
        · rw [if_neg hm]
          rw [List.nodup_append]
          refine ⟨hd, List.nodup_singleton q, ?_⟩
          intro a ha hb
          simp at hb
          subst hb
          exact hm ha
  exact main paths [] (by simp)

theorem computeHashes_keys_sub (hf : String → Option String) (paths : List String)
    (p : String) (h : p ∈ (computeHashes hf paths).map Prod.fst) : p ∈ paths := by
  obtain ⟨w, hw⟩ := mem_keys_lookup _ _ h
  exact ((computeHashes_lookup hf paths p w).mp hw).1

theorem select_ok_elim (seedFn : Nat → Nat) (randFn2 : Nat → Nat → Nat)
    (hashFn : String → Option String) (dist : String → String → Nat)
    (g : Nat) (paths : List String) (k : Nat) (rs : Option Nat)
    (idxs : List Nat) (scores : List (WithTop Nat))
    (hok : select_diverse_files seedFn randFn2 hashFn dist g paths k rs =
      Except.ok (idxs, scores)) :
    1 ≤ k ∧ k ≤ paths.length ∧
    k ≤ ((computeHashes hashFn paths).map Prod.fst).length ∧
    idxs = (greedy (fun i j => dist
        ((dictLookup (computeHashes hashFn paths)
          (((computeHashes hashFn paths).map Prod.fst).getD i "")).getD "")
        ((dictLookup (computeHashes hashFn paths)
          (((computeHashes hashFn paths).map Prod.fst).getD j "")).getD ""))
      ((computeHashes hashFn paths).map Prod.fst).length k
      (randFn2 (seedState seedFn g rs)
        ((computeHashes hashFn paths).map Prod.fst).length)).1.map
      (fun i => paths.indexOf (((computeHashes hashFn paths).map Prod.fst).getD i "")) ∧
    scores = (greedy (fun i j => dist
        ((dictLookup (computeHashes hashFn paths)
          (((computeHashes hashFn paths).map Prod.fst).getD i "")).getD "")
        ((dictLookup (computeHashes hashFn paths)
          (((computeHashes hashFn paths).map Prod.fst).getD j "")).getD ""))
      ((computeHashes hashFn paths).map Prod.fst).length k
      (randFn2 (seedState seedFn g rs)
        ((computeHashes hashFn paths).map Prod.fst).length)).2 := by
  simp only [select_diverse_files] at hok
  split at hok
  · exact absurd hok (by simp)
  · split at hok
    · exact absurd hok (by simp)
    · split at hok
      · exact absurd hok (by simp)
      · simp only [Except.ok.injEq, Prod.mk.injEq] at hok
        rename_i hk1 hk2 hk3
        exact ⟨by omega, by omega, by omega, hok.1.symm, hok.2.symm⟩

theorem chain'_getElem_rel {α : Type} (R : α → α → Prop) (l : List α)
    (h : List.Chain' R l) (i : Nat) (a b : α)
    (ha : l[i]? = some a) (hb : l[i + 1]? = some b) : R a b := by
  rw [List.chain'_iff_get] at h
  obtain ⟨hlb1, hlb2⟩ := List.getElem?_eq_some.mp hb
  obtain ⟨hla1, hla2⟩ := List.getElem?_eq_some.mp ha
  have hh := h i (by omega)
  have h1 : l.get ⟨i, by omega⟩ = a := by
    rw [List.get_eq_getElem]; exact hla2
  have h2 : l.get ⟨i + 1, by omega⟩ = b := by
    rw [List.get_eq_getElem]; exact hlb2
  rw [h1, h2] at hh
  exact hh

theorem greedy_scores_antitone (dist : Nat → Nat → Nat) (n k first : Nat)
    (t : Nat) (ht : 1 ≤ t) (a b : WithTop Nat)
    (ha : (greedy dist n k first).2[t]? = some a)
    (hb : (greedy dist n k first).2[t + 1]? = some b) : b ≤ a := by
  obtain ⟨t', rfl⟩ : ∃ t', t = t' + 1 := ⟨t - 1, by omega⟩
  simp only [greedy, List.getElem?_cons_succ, List.getElem?_map] at ha hb
  cases hsa : (greedyLoop dist first (k - 1)
      ((List.replicate n MDist.inf).set first MDist.sel)).2[t']? with
  | none => rw [hsa] at ha; simp at ha
  | some na =>
    cases hsb : (greedyLoop dist first (k - 1)
        ((List.replicate n MDist.inf).set first MDist.sel)).2[t' + 1]? with
    | none => rw [hsb] at hb; simp at hb
    | some nb =>
      rw [hsa] at ha
      rw [hsb] at hb
      simp only [Option.map_some'] at ha hb
      obtain rfl : WithTop.some na = a := Option.some.inj ha
      obtain rfl : WithTop.some nb = b := Option.some.inj hb
      have hch := (greedyLoop_chain dist (k - 1) first
        ((List.replicate n MDist.inf).set first MDist.sel)).1
      have := chain'_getElem_rel (fun a b => b ≤ a) _ hch t' na nb hsa hsb
      exact WithTop.coe_le_coe.mpr this

theorem greedy_deg (dist : Nat → Nat → Nat) (n k first : Nat) (hf : first < n)
    (hkn : k ≤ n) (hz : ∀ a b : Nat, dist a b = 0) :
    (greedy dist n k first).2 = ⊤ :: List.replicate (k - 1) (WithTop.some 0) := by
  have hrep : (List.replicate n MDist.inf)[first]? = some MDist.inf :=
    List.getElem?_replicate_of_lt hf
  have hcnt : nonselCount ((List.replicate n MDist.inf).set first MDist.sel) + 1 = n := by
    rw [nonselCount_set_sel (List.replicate n MDist.inf) first MDist.inf hrep (by simp)]
    exact nonselCount_replicate_inf n
  simp only [greedy]
  rw [greedyLoop_zero_dist dist hz (k - 1) first
    ((List.replicate n MDist.inf).set first MDist.sel) (by omega)]
  simp [List.map_replicate]

/-- C1: In every selection round of the greedy algorithm, the candidate chosen
is the one with the maximum updated minimum distance to the already-selected
set (every still-unselected candidate's updated value is at most the winner's),
and ties are broken by the lower original index (every unselected candidate
with a strictly smaller index has a strictly smaller value). In the concrete
scenario of 10 candidates with distance(i, j) = |i - j| and first pick 0, the
picks are [0, 9, 4] with diversity scores [sentinel, 9, 4]. -/
theorem claim_C1 (dist : Nat → Nat) (md : List MDist) (v i : Nat)
    (h : (roundList dist 0 md none).2 = some (v, i)) :
    ((updMD dist 0 md)[i]? = some (MDist.fin v) ∧
      ∀ j w : Nat, (updMD dist 0 md)[j]? = some (MDist.fin w) →
        w ≤ v ∧ (j < i → w < v)) ∧
    greedy distAbs 10 3 0 =
      ([0, 9, 4], [⊤, WithTop.some 9, WithTop.some 4]) :=
  ⟨roundList_some_spec dist md v i h, by decide⟩

theorem claim_C1_witness :
    (((updMD (fun _ => 5) 0 [MDist.inf])[0]? = some (MDist.fin 5) ∧
      ∀ j w : Nat, (updMD (fun _ => 5) 0 [MDist.inf])[j]? = some (MDist.fin w) →
        w ≤ 5 ∧ (j < 0 → w < 5)) ∧
    greedy distAbs 10 3 0 =
      ([0, 9, 4], [⊤, WithTop.some 9, WithTop.some 4])) :=
  claim_C1 (fun _ => 5) [MDist.inf] 5 0 (by decide)

/-- C3: for a fixed candidate set and a fixed seed, two independent select
calls produce identical indices and scores: the result does not depend on the
ambient global random state, because `random.seed(random_state)` overwrites
it before the first pick is drawn. -/
theorem claim_C3 (seedFn : Nat → Nat) (randFn : Nat → Nat → Nat)
    (hashFn : String → Option String) (dist : String → String → Nat)
    (paths : List String) (k s : Nat) (g1 g2 : Nat) :
    select_diverse_files seedFn randFn hashFn dist g1 paths k (some s) =
      select_diverse_files seedFn randFn hashFn dist g2 paths k (some s) := rfl

/-- C7: for every successful select call, the first diversity score is the
infinite sentinel (`np.inf`, modelled as `⊤`). -/
theorem claim_C7 (seedFn : Nat → Nat) (randFn : Nat → Nat → Nat)
    (hashFn : String → Option String) (dist : String → String → Nat)
    (g : Nat) (paths : List String) (k : Nat) (rs : Option Nat)
    (idxs : List Nat) (scores : List (WithTop Nat))
    (hok : select_diverse_files seedFn randFn hashFn dist g paths k rs =
      Except.ok (idxs, scores)) :
    scores.head? = some ⊤ := by
  obtain ⟨-, -, -, -, hsc⟩ := select_ok_elim seedFn randFn hashFn dist g paths k rs
    idxs scores hok
  rw [hsc]
  rfl

theorem claim_C7_witness :
    (([⊤, WithTop.some 0] : List (WithTop Nat)).head? = some ⊤) :=
  claim_C7 id (fun st n => st % n) (fun p => some p) (fun _ _ => 0) 0 ["x", "y"] 2 none
    [0, 1] [⊤, WithTop.some 0] (by rfl)

/-- C9: `compute_hashes_parallel` never propagates a per-file failure: the
returned mapping has an entry exactly for the inputs whose hash computation
succeeded, and a failing path is simply omitted. -/
theorem claim_C9 (hashFn : String → Option String) (paths : List String)
    (p h : String) :
    dictLookup (computeHashes hashFn paths) p = some h ↔
      (p ∈ paths ∧ hashFn p = some h) :=
  computeHashes_lookup hashFn paths p h

theorem claim_C9_witness :
    (dictLookup (computeHashes (fun q => if q = "bad" then none else some q)
        ["a", "bad"]) "a" = some "a" ↔
      ("a" ∈ ["a", "bad"] ∧
        (if "a" = "bad" then none else some "a") = some "a")) :=
  claim_C9 (fun q => if q = "bad" then none else some q) ["a", "bad"] "a" "a"

theorem select_map_back (paths : List String) (valid : List String)
    (hvnodup : valid.Nodup) (hsub : ∀ p ∈ valid, p ∈ paths)
    (sel : List Nat) (hselN : sel.Nodup) (hselR : ∀ x ∈ sel, x < valid.length) :
    (sel.map (fun i => paths.indexOf (valid.getD i ""))).Nodup ∧
    (∀ i ∈ sel.map (fun i => paths.indexOf (valid.getD i "")),
      i < paths.length ∧ ∃ x, x ∈ paths ∧ i = paths.indexOf x) := by
  constructor
  · apply (List.nodup_map_iff_inj_on hselN).mpr
    intro x hx y hy hxy
    have hxn := hselR x hx
    have hyn := hselR y hy
    rw [List.getD_eq_getElem valid "" hxn, List.getD_eq_getElem valid "" hyn] at hxy
    have h1 : valid[x] ∈ paths := hsub _ (List.getElem_mem hxn)
    have h2 : valid[y] ∈ paths := hsub _ (List.getElem_mem hyn)
    have hvv := (List.indexOf_inj h1 h2).mp hxy
    exact (List.Nodup.getElem_inj_iff hvnodup).mp hvv
  · intro i hi
    obtain ⟨x, hx, rfl⟩ := List.mem_map.mp hi
    have hxn := hselR x hx
    rw [List.getD_eq_getElem valid "" hxn]
    have h1 : valid[x] ∈ paths := hsub _ (List.getElem_mem hxn)
    exact ⟨List.indexOf_lt_length.mpr h1, valid[x], h1, rfl⟩

/-- C2: for every successful selection, the diversity scores from position 1
onward are non-increasing: for all rounds t ≥ 1, scores[t] ≥ scores[t+1]. -/
theorem claim_C2 (seedFn : Nat → Nat) (randFn : Nat → Nat → Nat)
    (hashFn : String → Option String) (dist : String → String → Nat)
    (g : Nat) (paths : List String) (k : Nat) (rs : Option Nat)
    (idxs : List Nat) (scores : List (WithTop Nat))
    (hok : select_diverse_files seedFn randFn hashFn dist g paths k rs =
      Except.ok (idxs, scores))
    (t : Nat) (ht : 1 ≤ t) (a b : WithTop Nat)
    (ha : scores[t]? = some a) (hb : scores[t + 1]? = some b) : b ≤ a := by
  obtain ⟨-, -, -, -, hsc⟩ := select_ok_elim seedFn randFn hashFn dist g paths k rs
    idxs scores hok
  rw [hsc] at ha hb
  exact greedy_scores_antitone _ _ _ _ t ht a b ha hb

theorem claim_C2_witness : (WithTop.some 5 : WithTop Nat) ≤ WithTop.some 5 :=
  claim_C2 id (fun st n => st % n) (fun p => some p)
    (fun a b => if a = b then 0 else 5) 0 ["x", "y", "z"] 3 none
    [0, 1, 2] [⊤, WithTop.some 5, WithTop.some 5] (by rfl) 1 (by decide)
    (WithTop.some 5) (WithTop.some 5) (by rfl) (by rfl)

/-- C4 counterexample: the claim says two equal strings in the input are two
independent candidate positions; but with input ["a", "a"] (both fingerprint
successfully) and k = 2 the hash dict collapses the duplicates to one key, so
only 1 valid candidate remains and the call fails with
InsufficientFilesError(1, 2) instead of selecting two positions. -/
theorem claim_C4_cex :
    select_diverse_files id (fun st n => st % n) (fun _ => some "h") (fun _ _ => 0) 0
      ["a", "a"] 2 none = Except.error (SelError.insufficientFiles 1 2) := by rfl

/-- C4 (amended): duplicate identifiers are collapsed by the path-keyed hash
dict — the candidate key list contains each successfully-hashed path exactly
once — and every index a successful select returns is the first-occurrence
index (`list.index`) of some input path. -/
theorem claim_C4_amended (hashFn : String → Option String) (paths : List String) :
    ((computeHashes hashFn paths).map Prod.fst).Nodup ∧
    (∀ p : String, p ∈ (computeHashes hashFn paths).map Prod.fst ↔
      (p ∈ paths ∧ ∃ h, hashFn p = some h)) ∧
    (∀ (seedFn : Nat → Nat) (randFn : Nat → Nat → Nat) (dist : String → String → Nat)
      (g k : Nat) (rs : Option Nat) (idxs : List Nat) (scores : List (WithTop Nat)),
      (∀ st m : Nat, 0 < m → randFn st m < m) →
      select_diverse_files seedFn randFn hashFn dist g paths k rs =
        Except.ok (idxs, scores) →
      ∀ i ∈ idxs, i < paths.length ∧ ∃ x, x ∈ paths ∧ i = paths.indexOf x) := by
  refine ⟨computeHashes_keys_nodup hashFn paths, ?_, ?_⟩
  · intro p
    constructor
    · intro hp
      obtain ⟨w, hw⟩ := mem_keys_lookup _ p hp
      have hc := (computeHashes_lookup hashFn paths p w).mp hw
      exact ⟨hc.1, w, hc.2⟩
    · rintro ⟨hp, w, hw⟩
      exact dictLookup_mem_keys _ p w ((computeHashes_lookup hashFn paths p w).mpr ⟨hp, hw⟩)
  · intro sf rf dist g k rs idxs scores hr hok
    obtain ⟨hk1, hk2, hk3, hidx, hsc⟩ := select_ok_elim sf rf hashFn dist g paths k rs
      idxs scores hok
    have hn : 0 < ((computeHashes hashFn paths).map Prod.fst).length := by omega
    have hfl : rf (seedState sf g rs)
        ((computeHashes hashFn paths).map Prod.fst).length <
        ((computeHashes hashFn paths).map Prod.fst).length := hr _ _ hn
    have gsp := greedy_spec (fun i j => dist
        ((dictLookup (computeHashes hashFn paths)
          (((computeHashes hashFn paths).map Prod.fst).getD i "")).getD "")
        ((dictLookup (computeHashes hashFn paths)
          (((computeHashes hashFn paths).map Prod.fst).getD j "")).getD ""))
      ((computeHashes hashFn paths).map Prod.fst).length k
      (rf (seedState sf g rs)
        ((computeHashes hashFn paths).map Prod.fst).length) hfl hk1 hk3
    have hmb := select_map_back paths ((computeHashes hashFn paths).map Prod.fst)
      (computeHashes_keys_nodup hashFn paths)
      (fun p hp => computeHashes_keys_sub hashFn paths p hp)
      _ gsp.2.2.1 gsp.2.2.2
    rw [hidx]
    intro i hi
    exact hmb.2 i hi

theorem claim_C4_amended_witness :
    ((computeHashes (fun _ => (some "h" : Option String)) ["a", "a"]).map Prod.fst).Nodup ∧
    (∀ p : String,
      p ∈ (computeHashes (fun _ => (some "h" : Option String)) ["a", "a"]).map Prod.fst ↔
        (p ∈ ["a", "a"] ∧ ∃ h, (some "h" : Option String) = some h)) ∧
    (∀ (seedFn : Nat → Nat) (randFn : Nat → Nat → Nat) (dist : String → String → Nat)
      (g k : Nat) (rs : Option Nat) (idxs : List Nat) (scores : List (WithTop Nat)),
      (∀ st m : Nat, 0 < m → randFn st m < m) →
      select_diverse_files seedFn randFn (fun _ => (some "h" : Option String)) dist g
        ["a", "a"] k rs = Except.ok (idxs, scores) →
      ∀ i ∈ idxs, i < (["a", "a"] : List String).length ∧
        ∃ x, x ∈ ["a", "a"] ∧ i = (["a", "a"] : List String).indexOf x) :=
  claim_C4_amended (fun _ => some "h") ["a", "a"]

/-- C5: `select_diverse_files` raises ValueError for k ≤ 0 or k > len(paths)
before any fingerprinting (the result is the same for every hash function and
is independent of the selection machinery), and raises InsufficientFilesError
carrying both the valid count and the requested count, before any selection
work (independent of the seed and random functions), when the number of
validly fingerprinted files is below k; its message interpolates both counts. -/
theorem claim_C5 (hashFn : String → Option String) (dist : String → String → Nat)
    (g : Nat) (paths : List String) (k : Nat) (rs : Option Nat) :
    (k ≤ 0 ∨ paths.length < k →
      ∀ (hf : String → Option String) (seedFn : Nat → Nat) (randFn : Nat → Nat → Nat),
        select_diverse_files seedFn randFn hf dist g paths k rs =
          Except.error SelError.valueError) ∧
    (¬(k ≤ 0 ∨ paths.length < k) →
      (computeHashes hashFn paths).length < k →
      ∀ (seedFn : Nat → Nat) (randFn : Nat → Nat → Nat) (g' : Nat),
        select_diverse_files seedFn randFn hashFn dist g' paths k rs =
          Except.error (SelError.insufficientFiles (computeHashes hashFn paths).length k) ∧
        ∃ s1 s2 s3 : String,
          (SelError.insufficientFiles (computeHashes hashFn paths).length k).message =
            s1 ++ toString (computeHashes hashFn paths).length ++ s2 ++
              toString k ++ s3) := by
  constructor
  · intro h hf sf rf
    simp only [select_diverse_files]
    rcases h with h | h
    · rw [if_pos h]
    · by_cases h0 : k ≤ 0
      · rw [if_pos h0]
      · rw [if_neg h0, if_pos h]
  · intro hv hcnt sf rf g'
    constructor
    · simp only [select_diverse_files]
      rw [if_neg (by omega : ¬k ≤ 0), if_neg (by omega : ¬paths.length < k),
        if_pos (by rw [List.length_map]; exact hcnt), List.length_map]
    · exact ⟨"Only ", " valid files found, but ",
        " requested. Check if files exist and are valid for TLSH hashing (>= 50 bytes).",
        rfl⟩

theorem claim_C5_witness :
    (select_diverse_files id (fun st n => st % n) (fun p => some p) (fun _ _ => 0) 0
      ["a"] 0 none = Except.error SelError.valueError) ∧
    (select_diverse_files id (fun st n => st % n) (fun _ => none) (fun _ _ => 0) 0
      ["a"] 1 none = Except.error (SelError.insufficientFiles 0 1)) :=
  ⟨(claim_C5 (fun p => some p) (fun _ _ => 0) 0 ["a"] 0 none).1 (Or.inl (by decide))
      (fun p => some p) id (fun st n => st % n),
   ((claim_C5 (fun _ => none) (fun _ _ => 0) 0 ["a"] 1 none).2 (by simp) (by decide)
      id (fun st n => st % n) 0).1⟩

/-- C6: every successful select call returns exactly k indices, all distinct
and all in [0, n) where n is the number of input paths, the scores list also
has length k, and when all pairwise distances are 0 the scores are
[sentinel, 0, 0, ...]. -/
theorem claim_C6 (seedFn : Nat → Nat) (randFn : Nat → Nat → Nat)
    (hashFn : String → Option String) (dist : String → String → Nat)
    (g : Nat) (paths : List String) (k : Nat) (rs : Option Nat)
    (idxs : List Nat) (scores : List (WithTop Nat))
    (hr : ∀ st m : Nat, 0 < m → randFn st m < m)
    (hok : select_diverse_files seedFn randFn hashFn dist g paths k rs =
      Except.ok (idxs, scores)) :
    idxs.length = k ∧ scores.length = k ∧ idxs.Nodup ∧
    (∀ i ∈ idxs, i < paths.length) ∧
    ((∀ a b : String, dist a b = 0) →
      scores = ⊤ :: List.replicate (k - 1) (WithTop.some 0)) := by
  obtain ⟨hk1, hk2, hk3, hidx, hsc⟩ := select_ok_elim seedFn randFn hashFn dist g paths k rs
    idxs scores hok
  have hn : 0 < ((computeHashes hashFn paths).map Prod.fst).length := by omega
  have hfl : randFn (seedState seedFn g rs)
      ((computeHashes hashFn paths).map Prod.fst).length <
      ((computeHashes hashFn paths).map Prod.fst).length := hr _ _ hn
  have gsp := greedy_spec (fun i j => dist
      ((dictLookup (computeHashes hashFn paths)
        (((computeHashes hashFn paths).map Prod.fst).getD i "")).getD "")
      ((dictLookup (computeHashes hashFn paths)
        (((computeHashes hashFn paths).map Prod.fst).getD j "")).getD ""))
    ((computeHashes hashFn paths).map Prod.fst).length k
    (randFn (seedState seedFn g rs)
      ((computeHashes hashFn paths).map Prod.fst).length) hfl hk1 hk3
  have hmb := select_map_back paths ((computeHashes hashFn paths).map Prod.fst)
    (computeHashes_keys_nodup hashFn paths)
    (fun p hp => computeHashes_keys_sub hashFn paths p hp)
    _ gsp.2.2.1 gsp.2.2.2
  refine ⟨?_, ?_, ?_, ?_, ?_⟩
  · rw [hidx, List.length_map, gsp.1]
  · rw [hsc, gsp.2.1]
  · rw [hidx]
    exact hmb.1
  · rw [hidx]
    intro i hi
    exact (hmb.2 i hi).1
  · intro hz
    rw [hsc]
    exact greedy_deg _ _ k _ hfl hk3 (fun a b => hz _ _)

theorem claim_C6_witness :
    (([0, 1, 2] : List Nat).length = 3 ∧
      ([⊤, WithTop.some 0, WithTop.some 0] : List (WithTop Nat)).length = 3 ∧
      ([0, 1, 2] : List Nat).Nodup ∧
      (∀ i ∈ ([0, 1, 2] : List Nat), i < (["x", "y", "z"] : List String).length) ∧
      ((∀ a b : String, (fun (_ _ : String) => (0 : Nat)) a b = 0) →
        ([⊤, WithTop.some 0, WithTop.some 0] : List (WithTop Nat)) =
          ⊤ :: List.replicate (3 - 1) (WithTop.some 0))) :=
  claim_C6 id (fun st n => st % n) (fun p => some p) (fun _ _ => 0) 0 ["x", "y", "z"] 3
    none [0, 1, 2] [⊤, WithTop.some 0, WithTop.some 0]
    (fun st m hm => Nat.mod_lt st hm) (by rfl)

/-- C8: after `set(id, f)` (with the resource present), `get(id)` returns f
as long as the resource's mtime and size are unchanged; if the mtime or the
size changed, or the resource no longer exists, `get(id)` returns None. -/
theorem claim_C8 (fs : FileSys) (st : CacheState) (p h : String) (m : Int) (sz : Nat)
    (hex : fs p = some (m, sz)) :
    (∀ fs' : FileSys, fs' p = some (m, sz) →
      (CacheState.get fs' (CacheState.set fs st p h) p).1 = some h) ∧
    (∀ (fs' : FileSys) (m' : Int) (sz' : Nat), fs' p = some (m', sz') →
      (m' ≠ m ∨ sz' ≠ sz) →
      (CacheState.get fs' (CacheState.set fs st p h) p).1 = none) ∧
    (∀ fs' : FileSys, fs' p = none →
      (CacheState.get fs' (CacheState.set fs st p h) p).1 = none) := by
  have hset : CacheState.set fs st p h =
      { cache := insertEntry st.cache p ⟨h, m, sz⟩, dirty := true } := by
    simp [CacheState.set, hex]
  have hl : lookupEntry (CacheState.set fs st p h).cache p = some ⟨h, m, sz⟩ := by
    rw [hset]
    show dictLookup (dictInsert st.cache p ⟨h, m, sz⟩) p = some ⟨h, m, sz⟩
    rw [dictLookup_insert, if_pos rfl]
  refine ⟨?_, ?_, ?_⟩
  · intro fs' hfs'
    simp [CacheState.get, is_cache_valid, hl, hfs']
  · intro fs' m' sz' hfs' hne
    have hcond : ¬(m = m' ∧ sz = sz') := by
      rintro ⟨h1, h2⟩
      rcases hne with hne | hne
      · exact hne h1.symm
      · exact hne h2.symm
    simp [CacheState.get, is_cache_valid, hl, hfs', hcond]
  · intro fs' hfs'
    simp [CacheState.get, is_cache_valid, hl, hfs']

theorem claim_C8_witness :
    ((CacheState.get (fun _ => some (0, 1))
        (CacheState.set (fun _ => some (0, 1)) ⟨[], false⟩ "a" "H") "a").1 = some "H") ∧
    ((CacheState.get (fun _ => some (5, 1))
        (CacheState.set (fun _ => some (0, 1)) ⟨[], false⟩ "a" "H") "a").1 = none) ∧
    ((CacheState.get (fun _ => none)
        (CacheState.set (fun _ => some (0, 1)) ⟨[], false⟩ "a" "H") "a").1 = none) :=
  ⟨(claim_C8 (fun _ => some (0, 1)) ⟨[], false⟩ "a" "H" 0 1 rfl).1
      (fun _ => some (0, 1)) rfl,
   (claim_C8 (fun _ => some (0, 1)) ⟨[], false⟩ "a" "H" 0 1 rfl).2.1
      (fun _ => some (5, 1)) 5 1 rfl (Or.inl (by decide)),
   (claim_C8 (fun _ => some (0, 1)) ⟨[], false⟩ "a" "H" 0 1 rfl).2.2
      (fun _ => none) rfl⟩

/-- C10: cache lookups are pure reads: `get` and `get_all_hashes` leave the
in-memory store and the dirty flag unchanged (in particular a stale or
missing entry is never evicted by a lookup), and an entry survives a `set`
for a different id. -/
theorem claim_C10 (fs : FileSys) (st : CacheState) (p q : String) (e : CacheEntry)
    (f : String) :
    (CacheState.get fs st p).2 = st ∧
    (CacheState.get_all_hashes fs st).2 = st ∧
    (dictLookup st.cache q = some e → p ≠ q →
      dictLookup (CacheState.set fs st p f).cache q = some e) := by
  refine ⟨?_, rfl, ?_⟩
  · simp only [CacheState.get]
    split <;> rfl
  · intro hq hpq
    simp only [CacheState.set]
    cases hfp : fs p with
    | none => exact hq
    | some ms =>
      show dictLookup (dictInsert st.cache p ⟨f, ms.1, ms.2⟩) q = some e
      rw [dictLookup_insert, if_neg (fun hh => hpq hh.symm)]
      exact hq

theorem claim_C10_witness :
    ((CacheState.get (fun _ => none) ⟨[("b", ⟨"HB", 1, 2⟩)], false⟩ "a").2 =
      (⟨[("b", ⟨"HB", 1, 2⟩)], false⟩ : CacheState)) ∧
    (dictLookup (CacheState.set (fun _ => some (0, 0)) ⟨[("b", ⟨"HB", 1, 2⟩)], false⟩
        "a" "HA").cache "b" = some ⟨"HB", 1, 2⟩) :=
  ⟨(claim_C10 (fun _ => none) ⟨[("b", ⟨"HB", 1, 2⟩)], false⟩ "a" "b" ⟨"HB", 1, 2⟩ "HA").1,
   (claim_C10 (fun _ => some (0, 0)) ⟨[("b", ⟨"HB", 1, 2⟩)], false⟩ "a" "b"
      ⟨"HB", 1, 2⟩ "HA").2.2 (by rfl) (by decide)⟩

end TlshSelector
